import Mathlib

/-!
# Verification of the Uma event matching engine

Shallow embedding of `src/event_scanner/core/event_database.py` (class
`EventDatabase`): corpus loading (`load_events`, `_process_event_data`,
`_is_english_event`), text normalization (`_clean_text`), scoring
(`_calculate_match_score`, `_calculate_partial_word_match`) and matching
(`find_matching_event`).

Modelling conventions:
* Python strings are `List Char`; `str` injects Lean string literals.
* Python `re` character classes `\w`/`\s` are modelled on the latin-script
  alphabet the corpus filter enforces: `\w` is `[A-Za-z0-9_]`, `\s` is ASCII
  whitespace.  Python `str.lower` is modelled by `Char.toLower` (ASCII).
* Python floats are modelled as rationals.  Every score the code produces is
  either `0`, `1`, or a quotient of small naturals, and every comparison the
  claims exercise is against `0`, `1/2` or `1`, where float rounding cannot
  change the outcome.
* Python dicts are association lists in insertion order; assigning to an
  existing key updates the stored value in place (keeping its position),
  which is exactly Python dict semantics.
* Exceptions during corpus processing are modelled by a `Bool` flag returned
  next to the partially built dictionary; `load_events` catches them, so it
  only keeps the dictionary component.  Logging is not modelled.
-/

abbrev Str := List Char

/-- Inject a Lean string literal into the character-list model. -/
def str (s : String) : Str := s.data

/-- The apostrophe character (U+0027). -/
def apos : Char := Char.ofNat 39

/-- Python whitespace (`\s` and the default `str.split` separator), ASCII range. -/
def pyIsSpace (c : Char) : Bool :=
  c = ' ' || c = '\t' || c = '\n' || c = '\x0b' || c = '\x0c' || c = '\r'

/-- Python word characters (`\w`), latin-script range: `[A-Za-z0-9_]`. -/
def isWordChar (c : Char) : Bool :=
  c.isAlphanum || c = '_'

/-- Characters kept by `re.sub(r'[^\w\s]', '', text)`. -/
def keepChar (c : Char) : Bool :=
  isWordChar c || pyIsSpace c

/-- Accumulator-based splitter behind `splitWs` (Python `str.split()` with no
arguments: split on runs of whitespace, discarding empty pieces). -/
def splitWsAux : Str → Str → List Str
  | [], acc => if acc.isEmpty then [] else [acc.reverse]
  | c :: cs, acc =>
    if pyIsSpace c then
      if acc.isEmpty then splitWsAux cs [] else acc.reverse :: splitWsAux cs []
    else
      splitWsAux cs (c :: acc)

/-- Python `str.split()` with no arguments. -/
def splitWs (s : Str) : List Str := splitWsAux s []

/-- Python `' '.join(parts)`. -/
def joinSpace : List Str → Str
  | [] => []
  | [p] => p
  | p :: q :: ps => p ++ ' ' :: joinSpace (q :: ps)

/-- `EventDatabase._clean_text`: `re.sub(r'[^\w\s]', '', text)` followed by
`' '.join(cleaned.split())`. -/
def cleanText (s : Str) : Str :=
  joinSpace (splitWs (s.filter keepChar))

/-- Python `str.lower` (ASCII). -/
def lowerStr (s : Str) : Str := s.map Char.toLower

/-- The normalization used for comparison in `find_matching_event`:
lowercasing composed with `_clean_text`. -/
def normalizeText (s : Str) : Str := cleanText (lowerStr s)

/-- Python `str.strip()`: drop whitespace from both ends. -/
def stripStr (s : Str) : Str :=
  ((s.dropWhile pyIsSpace).reverse.dropWhile pyIsSpace).reverse

/-- Fuel-based worker for `replaceStr`; the fuel bounds the number of
characters still to scan, so recursion is structural (and hence reduces in
the kernel).  `replaceStr` always supplies enough fuel. -/
def replaceStrAux (pat rep : Str) : ℕ → Str → Str
  | _, [] => []
  | 0, s => s
  | fuel + 1, c :: cs =>
    if pat ≠ [] ∧ pat.isPrefixOf (c :: cs) then
      rep ++ replaceStrAux pat rep fuel (cs.drop (pat.length - 1))
    else
      c :: replaceStrAux pat rep fuel cs

/-- Python `str.replace(pat, rep)`: replace all non-overlapping occurrences,
scanning left to right.  (All patterns used by the source are non-empty.) -/
def replaceStr (pat rep s : Str) : Str :=
  replaceStrAux pat rep s.length s

/-- Python substring containment `pat in s`. -/
def isSubstr (pat : Str) : Str → Bool
  | [] => pat.isEmpty
  | c :: cs => pat.isPrefixOf (c :: cs) || isSubstr pat cs

/-- Python `max` of two numbers (`max(a, b)` keeps the first argument on
ties).  Defined directly so that it reduces in the kernel. -/
def qmax (a b : ℚ) : ℚ := if b > a then b else a

/-- `EventDatabase._calculate_match_score`.  `1` on direct substring
containment of the event name in the text, otherwise the number of distinct
words shared by the two texts divided by the number of event-name words
(`mkRat` is exactly that quotient; the denominator is never `0` here). -/
def matchScore (text eventName : Str) : ℚ :=
  if text = [] ∨ eventName = [] then 0
  else if isSubstr eventName text then 1
  else
    let tw := splitWs text
    let ew := splitWs eventName
    if ew = [] then 0
    else mkRat ((tw.dedup.filter (fun w => ew.contains w)).length : ℤ) ew.length

/-- Models `int(0.7 * len(w))`.  The only use compares it against `len(w)`,
which holds for any rounding of `0.7 * len(w)`, so Nat division is a faithful
model of the float computation here. -/
def minChars (w : Str) : ℕ := 7 * w.length / 10

/-- `EventDatabase._calculate_partial_word_match`: the fraction of event-name
words that are matched in the text — exactly (for words of length at most 3)
or by substring containment in either direction (for longer words). -/
def partWordMatch (text eventName : Str) : ℚ :=
  if text = [] ∨ eventName = [] then 0
  else
    let tw := splitWs text
    let ew := splitWs eventName
    if ew = [] then 0
    else
      let matched := ew.filter (fun w =>
        if w.length ≤ 3 then tw.contains w
        else tw.any (fun t =>
          decide (w.length ≥ minChars w) && (isSubstr w t || isSubstr t w)))
      mkRat (matched.length : ℤ) ew.length

/-- One element of a Python event `choices` list. -/
structure EventChoice where
  choice : Str
  effect : Str
deriving DecidableEq, Repr

/-- The record stored as a value of `self.events`:
`{'name': ..., 'choices': ..., 'type': ...}`. -/
structure EventData where
  name : Str
  choices : List EventChoice
  etype : Str
deriving DecidableEq, Repr

/-- `self.events`: a Python dict, i.e. an association list in insertion
order with unique keys. -/
abbrev EventDict := List (Str × EventData)

/-- Python dict membership test for `self.events`. -/
def dictContains (k : Str) (d : EventDict) : Bool :=
  d.any (fun p => p.1 == k)

/-- Python dict lookup for `self.events`. -/
def dictLookup (k : Str) (d : EventDict) : Option EventData :=
  (d.find? (fun p => p.1 == k)).map (·.2)

/-- Python dict assignment `d[k] = v`: update in place when the key exists
(keeping its position), else append at the end. -/
def dictInsert (k : Str) (v : EventData) (d : EventDict) : EventDict :=
  if dictContains k d then
    d.map (fun p => if p.1 == k then (k, v) else p)
  else
    d ++ [(k, v)]

/-- One of the three Japanese ranges of `_is_english_event`:
hiragana U+3040–U+309F, katakana U+30A0–U+30FF, CJK U+4E00–U+9FAF. -/
def isJapaneseChar (c : Char) : Bool :=
  (0x3040 ≤ c.toNat && c.toNat ≤ 0x309F) ||
  (0x30A0 ≤ c.toNat && c.toNat ≤ 0x30FF) ||
  (0x4E00 ≤ c.toNat && c.toNat ≤ 0x9FAF)

/-- A latin letter (`[a-zA-Z]`). -/
def isLatinChar (c : Char) : Bool :=
  ('a' ≤ c && c ≤ 'z') || ('A' ≤ c && c ≤ 'Z')

/-- Whether a string contains a character of the Japanese ranges. -/
def hasJapanese (s : Str) : Bool := s.any isJapaneseChar

/-- Whether a string contains a latin letter. -/
def hasLatin (s : Str) : Bool := s.any isLatinChar

/-- `EventDatabase._is_english_event`. -/
def isEnglishEvent (text : Str) : Bool :=
  if text.isEmpty then false
  else if hasJapanese text then false
  else if !hasLatin text then false
  else true

/-- One element of the corpus `events` JSON array, as consumed by
`_process_event_data`: `obj` holds the values retrieved by `.get` (with the
Python defaults `''`, `[]`, `'Unknown'` for missing keys); `bad` models a
non-dict element, on which `event.get` raises `AttributeError`. -/
inductive RawEntry where
  | obj (event : Str) (choices : List EventChoice) (etype : Str)
  | bad
deriving DecidableEq, Repr

/-- The loop body of `_process_event_data` over `data['events']`.  The `Bool`
result records whether an exception was raised (aborting the loop but keeping
all entries inserted so far, since `self.events` is mutated in place). -/
def processEntries : List RawEntry → EventDict → EventDict × Bool
  | [], d => (d, false)
  | .bad :: _, d => (d, true)
  | .obj name choices etype :: rest, d =>
    processEntries rest
      (if name ≠ [] ∧ isEnglishEvent name then
        dictInsert name ⟨name, choices, etype⟩ d
      else d)

/-- The JSON document passed to `_process_event_data`: either not a dict
(rejected with a log message), or a dict with or without an `events` key. -/
inductive ParsedDoc where
  | notDict
  | dict (events : Option (List RawEntry))
deriving DecidableEq, Repr

/-- `EventDatabase._process_event_data`. -/
def processEventData : ParsedDoc → EventDict → EventDict × Bool
  | .notDict, d => (d, false)
  | .dict none, d => (d, false)
  | .dict (some es), d => processEntries es d

/-- The state of the corpus file as seen by `load_events`: missing, present
but unreadable/unparsable (open or `json.load` raises), or parsed to a
document. -/
inductive CorpusSource where
  | missing
  | unreadable
  | parsed (doc : ParsedDoc)
deriving DecidableEq, Repr

/-- `EventDatabase.load_events`: reset the dict, then load; any exception
raised while reading, parsing or processing is caught (the partially built
dict survives, since `self.events` is mutated in place). -/
def loadEvents : CorpusSource → EventDict
  | .missing => []
  | .unreadable => []
  | .parsed doc => (processEventData doc []).1

/-- The key of the first `known_events` special case: `"i'm not afraid"`. -/
def imNotAfraidKey : Str := str "i" ++ apos :: str "m not afraid"

/-- The display name `"(❯) I'm Not Afraid!"`. -/
def imNotAfraidName : Str := str "(❯) I" ++ apos :: str "m Not Afraid!"

/-- The hardcoded `known_events` dict of `find_matching_event`, in insertion
order. -/
def knownEvents : List (Str × Str) :=
  [(str "lovely training weather", str "(❯) Lovely Training Weather ♪"),
   (imNotAfraidKey, imNotAfraidName)]

/-- `event_name.lower().replace("(❯)", "").replace("♪", "").strip()`. -/
def normEventName (n : Str) : Str :=
  stripStr (replaceStr (str "♪") [] (replaceStr (str "(❯)") [] (lowerStr n)))

/-- `key.replace("(❯)", "").replace("♪", "").strip()`. -/
def normKey (k : Str) : Str :=
  stripStr (replaceStr (str "♪") [] (replaceStr (str "(❯)") [] k))

/-- The special-case loop of `find_matching_event` over `known_events`:
if a key occurs in the (lowercased) combined text, return the database entry
stored under the exact hardcoded name, else the first database entry whose
normalized name equals the normalized key; otherwise continue. -/
def specialCaseLookup (events : EventDict) (combinedLower : Str) :
    List (Str × Str) → Option EventData
  | [] => none
  | (key, exact) :: rest =>
    if isSubstr key combinedLower then
      match dictLookup exact events with
      | some v => some v
      | none =>
        match events.find? (fun p => normEventName p.1 == normKey key) with
        | some p => some p.2
        | none => specialCaseLookup events combinedLower rest
    else specialCaseLookup events combinedLower rest

/-- `if "(❯)" in s: s = s.replace("(❯)", "").strip()`. -/
def dropArrow (s : Str) : Str :=
  if isSubstr (str "(❯)") s then stripStr (replaceStr (str "(❯)") [] s) else s

/-- The per-event score of the main loop of `find_matching_event`: the
maximum of the five scoring variants `score1`–`score5`. -/
def scoreEvent (cleaned cleanedNoArrow eventName : Str) : ℚ :=
  let lower := lowerStr eventName
  let cleanName := cleanText lower
  let noArrow := dropArrow lower
  let cleanNoArrow := cleanText noArrow
  qmax (qmax (qmax (matchScore cleaned lower) (matchScore cleaned cleanName))
        (partWordMatch cleaned cleanName))
    (qmax (matchScore cleanedNoArrow noArrow) (matchScore cleanedNoArrow cleanNoArrow))

/-- The best-match accumulation loop of `find_matching_event`: keep the first
event whose score strictly exceeds the running best. -/
def bestFold (cleaned cleanedNoArrow : Str) :
    EventDict → Option EventData × ℚ → Option EventData × ℚ
  | [], acc => acc
  | (name, data) :: rest, (bm, bs) =>
    if scoreEvent cleaned cleanedNoArrow name > bs then
      bestFold cleaned cleanedNoArrow rest (some data, scoreEvent cleaned cleanedNoArrow name)
    else
      bestFold cleaned cleanedNoArrow rest (bm, bs)

/-- The fabricated `"(❯) Lovely Training Weather ♪"` payload returned by the
special-case fallback when no database match was found. -/
def fabricatedLTW : EventData :=
  { name := str "(❯) Lovely Training Weather ♪"
    choices :=
      [⟨str "Top Option", str "Wisdom +5\nSkill points +20\nFine Motion bond +5"⟩,
       ⟨str "Middle Option", str "Speed +10\nStamina +5"⟩,
       ⟨str "Bottom Option", str "Get Practice Perfect ○ status\nFine Motion bond +5"⟩]
    etype := str "Chain Events" }

/-- The fabricated `"(❯) I'm Not Afraid!"` payload returned by the
special-case fallback when no database match was found. -/
def fabricatedINA : EventData :=
  { name := imNotAfraidName
    choices :=
      [⟨str "Top Option", str "Energy -5\nStamina +5\nSkill points +10\nMotivation increases"⟩,
       ⟨str "Bottom Option", str "Speed +10\nStamina +5\nGuts +5"⟩]
    etype := str "Chain Events" }

/-- `' '.join(texts).lower()`. -/
def combinedText (texts : List Str) : Str :=
  lowerStr (List.intercalate (str " ") texts)

/-- The two trailing special-case fallbacks of `find_matching_event`,
reached when no score exceeded the threshold. -/
def fallbackResult (combinedLower : Str) : Option EventData :=
  if isSubstr (str "lovely training weather") combinedLower then some fabricatedLTW
  else if isSubstr imNotAfraidKey combinedLower ||
      isSubstr (str "im not afraid") combinedLower then some fabricatedINA
  else none

/-- `EventDatabase.find_matching_event`, with the hardcoded threshold `0.5`
(`threshold = 0.5` at line 147) lifted into a parameter so that threshold
claims can be stated.  Everything else is fixed by the source. -/
def findMatchingEventT (threshold : ℚ) (events : EventDict) (texts : List Str) :
    Option EventData :=
  if texts = [] then none
  else
    let combined := combinedText texts
    let cleaned := cleanText combined
    match specialCaseLookup events (lowerStr combined) knownEvents with
    | some v => some v
    | none =>
      let cleanedNoArrow := dropArrow cleaned
      let best := bestFold cleaned cleanedNoArrow events (none, 0)
      if best.2 > threshold ∧ best.1.isSome then best.1
      else fallbackResult (lowerStr combined)

/-- `EventDatabase.find_matching_event` as in the source, at threshold `0.5`. -/
def findMatchingEvent (events : EventDict) (texts : List Str) : Option EventData :=
  findMatchingEventT (mkRat 1 2) events texts

/-- The number of candidates a result of `find_matching_event` carries (the
function returns at most one). -/
def numCandidates : Option EventData → ℕ
  | none => 0
  | some _ => 1

/-- Modelled from the spec: the owner kinds of §3 (`OwnerRecord.ownerType`).
The owner-aware engine is code of this repository that is not under `src/`:
`src/event_scanner/ui/main_window.py` calls
`find_matching_event(texts, selected_character_id)` and
`increment_source(...)` on it, but only this caller is in `src/`. -/
inductive OwnerType where
  | character
  | supportCard
  | scenario
deriving DecidableEq, Repr

/-- Modelled from the spec: one element of `EventVariant.sources`
(`{ownerType, ownerId, ownerName}`, §3). -/
structure SourceRef where
  ownerType : OwnerType
  ownerId : Str
  ownerName : Str
deriving DecidableEq, Repr

/-- Modelled from the spec: an `EventVariant` (§3) — identity `id`, display
name, and resolved `sources`. -/
structure EventVariant where
  vid : Str
  name : Str
  sources : List SourceRef
deriving DecidableEq, Repr

/-- Modelled from the spec: the `SessionFrequencyTracker` (§3), a mapping
from owner name to observation count. -/
abbrev FreqMap := List (Str × ℕ)

/-- Frequency of an owner name, defaulting to `0` when unobserved. -/
def freqOf (freq : FreqMap) (name : Str) : ℕ :=
  ((freq.find? (fun p => p.1 == name)).map (·.2)).getD 0

/-- Modelled from the spec (§4.6): a variant's score is
`max(freq[sourceName] for source in variant.sources)`, defaulting to `0`. -/
def variantScore (freq : FreqMap) (v : EventVariant) : ℕ :=
  (v.sources.map (fun s => freqOf freq s.ownerName)).foldr max 0

/-- Whether a variant's `sources` contain an entry with the given owner id. -/
def hasOwner (oid : Str) (v : EventVariant) : Bool :=
  v.sources.any (fun s => s.ownerId == oid)

/-- Modelled from the spec (§4.6): pick the variant with the highest session
score, ties broken by first-encountered order (stable). -/
def pickBest (freq : FreqMap) : List EventVariant → Option EventVariant
  | [] => none
  | v :: vs =>
    some (vs.foldl (fun best w =>
      if variantScore freq w > variantScore freq best then w else best) v)

/-- Modelled from the spec: `disambiguate` (§4.6).  Single variant returned
immediately; with an `ownerFilter`, tie-breaking is restricted to the
variants whose `sources` contain that owner id when that restriction is
non-empty, else falls back to the full set. -/
def disambiguate (variants : List EventVariant) (ownerFilter : Option Str)
    (freq : FreqMap) : Option EventVariant :=
  match variants with
  | [] => none
  | [v] => some v
  | _ =>
    let working :=
      match ownerFilter with
      | some oid =>
        let restricted := variants.filter (hasOwner oid)
        if restricted.isEmpty then variants else restricted
      | none => variants
    pickBest freq working

/-! ## Character-level lemmas -/

theorem char_toNat_ofNat_valid (n : ℕ) (h : n.isValidChar) :
    (Char.ofNat n).toNat = n := by
  simp [Char.ofNat, h, Char.ofNatAux, Char.toNat, UInt32.toNat, BitVec.toNat_ofNatLt]

theorem char_toLower_idem (c : Char) : c.toLower.toLower = c.toLower := by
  unfold Char.toLower
  by_cases h : c.toNat ≥ 65 ∧ c.toNat ≤ 90
  · rw [if_pos h]
    have hv : (c.toNat + 32).isValidChar := Or.inl (by omega)
    have hn : (Char.ofNat (c.toNat + 32)).toNat = c.toNat + 32 :=
      char_toNat_ofNat_valid _ hv
    rw [if_neg]
    rw [hn]
    omega
  · rw [if_neg h, if_neg h]

theorem char_toLower_space : Char.toLower ' ' = ' ' := by decide

/-! ## `qmax` and score bounds -/

theorem qmax_le {a b c : ℚ} (h1 : a ≤ c) (h2 : b ≤ c) : qmax a b ≤ c := by
  unfold qmax
  split <;> assumption

theorem mkRat_le_one {a b : ℕ} (hab : a ≤ b) (hb : b ≠ 0) :
    mkRat (a : ℤ) b ≤ 1 := by
  rw [Rat.mkRat_eq_divInt, Rat.divInt_eq_div]
  rw [div_le_one (by exact_mod_cast Nat.pos_of_ne_zero hb)]
  exact_mod_cast hab

theorem matchScore_le_one (t e : Str) : matchScore t e ≤ 1 := by
  unfold matchScore
  dsimp only
  split
  · norm_num
  · split
    · norm_num
    · split
      · norm_num
      · rename_i hempty hsub hew
        apply mkRat_le_one _ (by simpa [List.length_eq_zero] using hew)
        have hnd : ((splitWs t).dedup.filter
            (fun w => (splitWs e).contains w)).Nodup :=
          List.Nodup.filter _ (List.nodup_dedup _)
        have hsubset : ((splitWs t).dedup.filter
            (fun w => (splitWs e).contains w)) ⊆ splitWs e := by
          intro w hw
          have := (List.mem_filter.mp hw).2
          simpa using this
        exact (List.subperm_of_subset hnd hsubset).length_le

theorem partWordMatch_le_one (t e : Str) : partWordMatch t e ≤ 1 := by
  unfold partWordMatch
  dsimp only
  split
  · norm_num
  · split
    · norm_num
    · rename_i hempty hew
      apply mkRat_le_one (List.length_filter_le _ _)
        (by simpa [List.length_eq_zero] using hew)

theorem scoreEvent_le_one (c np n : Str) : scoreEvent c np n ≤ 1 := by
  unfold scoreEvent
  exact qmax_le
    (qmax_le (qmax_le (matchScore_le_one _ _) (matchScore_le_one _ _))
      (partWordMatch_le_one _ _))
    (qmax_le (matchScore_le_one _ _) (matchScore_le_one _ _))

/-! ## `splitWs` / `joinSpace` structure lemmas -/

theorem splitWsAux_nil (acc : Str) :
    splitWsAux [] acc = if acc.isEmpty then [] else [acc.reverse] := rfl

theorem splitWsAux_cons (c : Char) (cs acc : Str) :
    splitWsAux (c :: cs) acc =
      if pyIsSpace c then
        if acc.isEmpty then splitWsAux cs [] else acc.reverse :: splitWsAux cs []
      else splitWsAux cs (c :: acc) := rfl

theorem joinSpace_pair (p q : Str) (ps : List Str) :
    joinSpace (p :: q :: ps) = p ++ ' ' :: joinSpace (q :: ps) := rfl

/-- Every piece produced by `splitWsAux` is non-empty, consists of
non-whitespace characters, and draws its characters from the input or the
accumulator. -/
theorem splitWsAux_parts (s : Str) :
    ∀ acc, (∀ c ∈ acc, pyIsSpace c = false) →
      ∀ p ∈ splitWsAux s acc, p ≠ [] ∧ ∀ c ∈ p, pyIsSpace c = false ∧ (c ∈ s ∨ c ∈ acc) := by
  induction s with
  | nil =>
    intro acc hacc p hp
    rw [splitWsAux_nil] at hp
    by_cases h : acc.isEmpty
    · simp [h] at hp
    · rw [if_neg h] at hp
      rw [List.mem_singleton] at hp
      subst hp
      refine ⟨by simpa [List.isEmpty_iff] using h, ?_⟩
      intro c hc
      rw [List.mem_reverse] at hc
      exact ⟨hacc c hc, Or.inr hc⟩
  | cons a as ih =>
    intro acc hacc p hp
    rw [splitWsAux_cons] at hp
    by_cases ha : pyIsSpace a
    · rw [if_pos ha] at hp
      by_cases h : acc.isEmpty
      · rw [if_pos h] at hp
        obtain ⟨hne, hall⟩ := ih [] (by simp) p hp
        exact ⟨hne, fun c hc => ⟨(hall c hc).1,
          Or.inl (List.mem_cons_of_mem a ((hall c hc).2.resolve_right (by simp)))⟩⟩
      · rw [if_neg h] at hp
        rcases List.mem_cons.mp hp with h1 | h2
        · subst h1
          refine ⟨by simpa [List.isEmpty_iff] using h, ?_⟩
          intro c hc
          rw [List.mem_reverse] at hc
          exact ⟨hacc c hc, Or.inr hc⟩
        · obtain ⟨hne, hall⟩ := ih [] (by simp) p h2
          exact ⟨hne, fun c hc => ⟨(hall c hc).1,
            Or.inl (List.mem_cons_of_mem a ((hall c hc).2.resolve_right (by simp)))⟩⟩
    · rw [if_neg ha] at hp
      have hacc' : ∀ c ∈ a :: acc, pyIsSpace c = false := by
        intro c hc
        rcases List.mem_cons.mp hc with h1 | h2
        · subst h1; simpa using ha
        · exact hacc c h2
      obtain ⟨hne, hall⟩ := ih (a :: acc) hacc' p hp
      refine ⟨hne, fun c hc => ⟨(hall c hc).1, ?_⟩⟩
      rcases (hall c hc).2 with h1 | h2
      · exact Or.inl (List.mem_cons_of_mem a h1)
      · rcases List.mem_cons.mp h2 with h3 | h4
        · subst h3; exact Or.inl (List.mem_cons_self _ _)
        · exact Or.inr h4

/-- Specialization of `splitWsAux_parts` to `splitWs`. -/
theorem splitWs_parts (s : Str) :
    ∀ p ∈ splitWs s, p ≠ [] ∧ ∀ c ∈ p, pyIsSpace c = false ∧ c ∈ s := by
  intro p hp
  obtain ⟨hne, hall⟩ := splitWsAux_parts s [] (by simp) p hp
  exact ⟨hne, fun c hc => ⟨(hall c hc).1, (hall c hc).2.resolve_right (by simp)⟩⟩

/-- Scanning a block of non-whitespace characters just accumulates them. -/
theorem splitWsAux_nospace (p : Str) :
    ∀ acc s, (∀ c ∈ p, pyIsSpace c = false) →
      splitWsAux (p ++ s) acc = splitWsAux s (p.reverse ++ acc) := by
  induction p with
  | nil => intro acc s _; simp
  | cons a as ih =>
    intro acc s hp
    have ha : pyIsSpace a = false := hp a (List.mem_cons_self _ _)
    rw [List.cons_append, splitWsAux_cons, if_neg (by simp [ha])]
    rw [ih (a :: acc) s (fun c hc => hp c (List.mem_cons_of_mem a hc))]
    simp

/-- `splitWs` is a left inverse of `joinSpace` on lists of non-empty,
whitespace-free pieces. -/
theorem splitWs_joinSpace (P : List Str)
    (h : ∀ p ∈ P, p ≠ [] ∧ ∀ c ∈ p, pyIsSpace c = false) :
    splitWs (joinSpace P) = P := by
  induction P with
  | nil => rfl
  | cons p ps ih =>
    obtain ⟨hpne, hpns⟩ := h p (List.mem_cons_self _ _)
    cases ps with
    | nil =>
      show splitWsAux (joinSpace [p]) [] = [p]
      have : joinSpace [p] = p ++ [] := by simp [joinSpace]
      rw [this, splitWsAux_nospace p [] [] hpns, splitWsAux_nil]
      rw [if_neg (by simpa [List.isEmpty_iff] using hpne)]
      simp
    | cons q ps' =>
      show splitWsAux (joinSpace (p :: q :: ps')) [] = p :: q :: ps'
      rw [joinSpace_pair]
      rw [splitWsAux_nospace p [] (' ' :: joinSpace (q :: ps')) hpns]
      rw [splitWsAux_cons, if_pos (by decide), List.append_nil]
      rw [if_neg (by simp [List.isEmpty_iff, hpne])]
      rw [List.reverse_reverse]
      congr 1
      exact ih (fun r hr => h r (List.mem_cons_of_mem p hr))

/-- Characters of a joined list come from the pieces or are the separator. -/
theorem mem_joinSpace {c : Char} :
    ∀ {P : List Str}, c ∈ joinSpace P → c = ' ' ∨ ∃ p ∈ P, c ∈ p := by
  intro P
  induction P with
  | nil => intro h; simp [joinSpace] at h
  | cons p ps ih =>
    cases ps with
    | nil =>
      intro h
      exact Or.inr ⟨p, List.mem_cons_self _ _, by simpa [joinSpace] using h⟩
    | cons q ps' =>
      intro h
      rw [joinSpace_pair] at h
      rcases List.mem_append.mp h with h1 | h2
      · exact Or.inr ⟨p, List.mem_cons_self _ _, h1⟩
      · rcases List.mem_cons.mp h2 with h3 | h4
        · exact Or.inl h3
        · rcases ih h4 with h5 | ⟨r, hr, hcr⟩
          · exact Or.inl h5
          · exact Or.inr ⟨r, List.mem_cons_of_mem p hr, hcr⟩

/-- Every character of `cleanText s` is a kept, non-whitespace character of
`s`, or the single-space separator. -/
theorem mem_cleanText {c : Char} {s : Str} (h : c ∈ cleanText s) :
    c = ' ' ∨ (keepChar c = true ∧ pyIsSpace c = false ∧ c ∈ s) := by
  rcases mem_joinSpace h with h1 | ⟨p, hp, hcp⟩
  · exact Or.inl h1
  · obtain ⟨-, hall⟩ := splitWs_parts _ p hp
    obtain ⟨hns, hmemf⟩ := hall c hcp
    obtain ⟨hmem, hkeep⟩ := List.mem_filter.mp hmemf
    exact Or.inr ⟨hkeep, hns, hmem⟩

/-- `_clean_text` is idempotent. -/
theorem cleanText_idem (s : Str) : cleanText (cleanText s) = cleanText s := by
  have hparts : ∀ p ∈ splitWs (s.filter keepChar),
      p ≠ [] ∧ ∀ c ∈ p, pyIsSpace c = false :=
    fun p hp => ⟨(splitWs_parts _ p hp).1,
      fun c hc => ((splitWs_parts _ p hp).2 c hc).1⟩
  have hfilter : (cleanText s).filter keepChar = cleanText s := by
    rw [List.filter_eq_self]
    intro c hc
    rcases mem_cleanText hc with h1 | ⟨hk, -, -⟩
    · subst h1; decide
    · exact hk
  show joinSpace (splitWs ((cleanText s).filter keepChar)) = cleanText s
  rw [hfilter]
  show joinSpace (splitWs (joinSpace (splitWs (s.filter keepChar)))) = cleanText s
  rw [splitWs_joinSpace _ hparts]
  rfl

/-- Lowercasing fixes the output of `normalizeText`. -/
theorem lowerStr_normalizeText (s : Str) :
    lowerStr (normalizeText s) = normalizeText s := by
  show (normalizeText s).map Char.toLower = normalizeText s
  have : ∀ c ∈ normalizeText s, Char.toLower c = c := by
    intro c hc
    rcases mem_cleanText hc with h1 | ⟨-, -, hmem⟩
    · subst h1; exact char_toLower_space
    · obtain ⟨c₀, -, hc₀⟩ := List.mem_map.mp hmem
      rw [← hc₀]
      exact char_toLower_idem c₀
  calc (normalizeText s).map Char.toLower
      = (normalizeText s).map id := List.map_congr_left this
    _ = normalizeText s := List.map_id _

/-- The comparison normalization (`lower` then `_clean_text`) is idempotent. -/
theorem normalizeText_idem (s : Str) :
    normalizeText (normalizeText s) = normalizeText s := by
  show cleanText (lowerStr (normalizeText s)) = normalizeText s
  rw [lowerStr_normalizeText]
  exact cleanText_idem (lowerStr s)

/-! ## Shape of `cleanText` output (for single-space / trimming claims) -/

/-- A list of non-space characters is trivially chained by "no two adjacent
spaces". -/
theorem chainNoSpace_of_nonspace (l : Str) (h : ∀ a ∈ l, a ≠ ' ') :
    List.Chain' (fun a b => ¬(a = ' ' ∧ b = ' ')) l := by
  induction l with
  | nil => exact List.chain'_nil
  | cons a l ih =>
    rw [List.chain'_cons']
    refine ⟨fun y _ => fun hc => (h a (List.mem_cons_self _ _)) hc.1, ?_⟩
    exact ih (fun b hb => h b (List.mem_cons_of_mem a hb))

theorem joinSpace_head? (p : Str) (ps : List Str) (hp : p ≠ []) :
    (joinSpace (p :: ps)).head? = p.head? := by
  cases ps with
  | nil => rfl
  | cons q ps' =>
    rw [joinSpace_pair, List.head?_append]
    cases p with
    | nil => exact absurd rfl hp
    | cons a as => rfl

theorem joinSpace_getLast? (P : List Str)
    (h : ∀ p ∈ P, p ≠ []) :
    ∀ p ps, P = p :: ps → ∃ r ∈ P, (joinSpace P).getLast? = r.getLast? ∧ r ≠ [] := by
  induction P with
  | nil => intro p ps hP; cases hP
  | cons p' ps' ih =>
    intro p ps hP
    cases ps' with
    | nil =>
      refine ⟨p', List.mem_cons_self _ _, ?_, h p' (List.mem_cons_self _ _)⟩
      rfl
    | cons q qs =>
      obtain ⟨r, hr, hlast, hrne⟩ :=
        ih (fun x hx => h x (List.mem_cons_of_mem p' hx)) q qs rfl
      refine ⟨r, List.mem_cons_of_mem p' hr, ?_, hrne⟩
      rw [joinSpace_pair, List.getLast?_append]
      rw [show (' ' :: joinSpace (q :: qs)).getLast? = (joinSpace (q :: qs)).getLast? by
        cases hj : joinSpace (q :: qs) with
        | nil =>
          have h0 : r.getLast? = none := by rw [← hlast, hj]; rfl
          exact absurd (List.getLast?_eq_none_iff.mp h0) hrne
        | cons b bs => simp]
      rw [hlast]
      cases hr2 : r.getLast? with
      | none => exact absurd (List.getLast?_eq_none_iff.mp hr2) hrne
      | some b => simp

theorem joinSpace_chain' (P : List Str)
    (h : ∀ p ∈ P, p ≠ [] ∧ ∀ c ∈ p, pyIsSpace c = false) :
    List.Chain' (fun a b => ¬(a = ' ' ∧ b = ' ')) (joinSpace P) := by
  induction P with
  | nil => exact List.chain'_nil
  | cons p ps ih =>
    have hnsp : ∀ c ∈ p, c ≠ ' ' := by
      intro c hc he
      have := (h p (List.mem_cons_self _ _)).2 c hc
      rw [he] at this
      simp [pyIsSpace] at this
    cases ps with
    | nil => exact chainNoSpace_of_nonspace p hnsp
    | cons q ps' =>
      rw [joinSpace_pair]
      rw [List.chain'_append]
      refine ⟨chainNoSpace_of_nonspace p hnsp, ?_, ?_⟩
      · rw [List.chain'_cons']
        refine ⟨?_, ih (fun r hr => h r (List.mem_cons_of_mem p hr))⟩
        intro y hy
        rw [joinSpace_head? q ps' (h q (List.mem_cons_of_mem p (List.mem_cons_self _ _))).1] at hy
        have hyq : y ∈ q := List.mem_of_mem_head? hy
        have : pyIsSpace y = false :=
          (h q (List.mem_cons_of_mem p (List.mem_cons_self _ _))).2 y hyq
        intro hc
        rw [hc.2] at this
        simp [pyIsSpace] at this
      · intro x hx y hy
        have hxp : x ∈ p := List.mem_of_mem_getLast? hx
        exact fun hc => (hnsp x hxp) hc.1

/-! ## Matching-loop lemmas -/

theorem bestFold_cons (c np n : Str) (d : EventData) (rest : EventDict)
    (bm : Option EventData) (bs : ℚ) :
    bestFold c np ((n, d) :: rest) (bm, bs) =
      if scoreEvent c np n > bs then
        bestFold c np rest (some d, scoreEvent c np n)
      else bestFold c np rest (bm, bs) := rfl

/-- If every remaining score is bounded by the running best, the
accumulator never changes. -/
theorem bestFold_stay (c np : Str) (l : EventDict) (bm : Option EventData) (bs : ℚ)
    (h : ∀ p ∈ l, scoreEvent c np p.1 ≤ bs) :
    bestFold c np l (bm, bs) = (bm, bs) := by
  induction l with
  | nil => rfl
  | cons p rest ih =>
    obtain ⟨n, d⟩ := p
    rw [bestFold_cons]
    rw [if_neg (not_lt.mpr (h (n, d) (List.mem_cons_self _ _)))]
    exact ih (fun r hr => h r (List.mem_cons_of_mem _ hr))

/-- The final best score is bounded by any bound dominating the initial
accumulator and all individual scores. -/
theorem bestFold_snd_le (c np : Str) (l : EventDict) :
    ∀ (bm : Option EventData) (bs q : ℚ), bs ≤ q →
      (∀ p ∈ l, scoreEvent c np p.1 ≤ q) →
      (bestFold c np l (bm, bs)).2 ≤ q := by
  induction l with
  | nil => intro bm bs q h _; exact h
  | cons p rest ih =>
    intro bm bs q hbs hall
    obtain ⟨n, d⟩ := p
    rw [bestFold_cons]
    split
    · exact ih _ _ _ (hall (n, d) (List.mem_cons_self _ _))
        (fun r hr => hall r (List.mem_cons_of_mem _ hr))
    · exact ih _ _ _ hbs (fun r hr => hall r (List.mem_cons_of_mem _ hr))

/-- The best-match loop processes an appended index piecewise. -/
theorem bestFold_append (c np : Str) (l1 l2 : EventDict) :
    ∀ acc : Option EventData × ℚ,
      bestFold c np (l1 ++ l2) acc = bestFold c np l2 (bestFold c np l1 acc) := by
  induction l1 with
  | nil => intro acc; rfl
  | cons p rest ih =>
    intro acc
    obtain ⟨n, d⟩ := p
    obtain ⟨bm, bs⟩ := acc
    rw [List.cons_append, bestFold_cons, bestFold_cons]
    split
    · exact ih _
    · exact ih _

/-- Strict version of `bestFold_snd_le`: a strict bound on the initial
accumulator and on every score is a strict bound on the final best score. -/
theorem bestFold_snd_lt (c np : Str) (l : EventDict) :
    ∀ (bm : Option EventData) (bs q : ℚ), bs < q →
      (∀ p ∈ l, scoreEvent c np p.1 < q) →
      (bestFold c np l (bm, bs)).2 < q := by
  induction l with
  | nil => intro bm bs q h _; exact h
  | cons p rest ih =>
    intro bm bs q hbs hall
    obtain ⟨n, d⟩ := p
    rw [bestFold_cons]
    split
    · exact ih _ _ _ (hall (n, d) (List.mem_cons_self _ _))
        (fun r hr => hall r (List.mem_cons_of_mem _ hr))
    · exact ih _ _ _ hbs (fun r hr => hall r (List.mem_cons_of_mem _ hr))

theorem specialCaseLookup_cons (events : EventDict) (cl key ename : Str)
    (rest : List (Str × Str)) :
    specialCaseLookup events cl ((key, ename) :: rest) =
      if isSubstr key cl then
        match dictLookup ename events with
        | some v => some v
        | none =>
          match events.find? (fun p => normEventName p.1 == normKey key) with
          | some p => some p.2
          | none => specialCaseLookup events cl rest
      else specialCaseLookup events cl rest := rfl

/-- When neither hardcoded key occurs in the combined text, the special-case
loop falls through. -/
theorem specialCaseLookup_none (events : EventDict) (cl : Str)
    (h1 : isSubstr (str "lovely training weather") cl = false)
    (h2 : isSubstr imNotAfraidKey cl = false) :
    specialCaseLookup events cl knownEvents = none := by
  show specialCaseLookup events cl
    ((str "lovely training weather", str "(❯) Lovely Training Weather ♪") ::
      (imNotAfraidKey, imNotAfraidName) :: []) = none
  rw [specialCaseLookup_cons, if_neg (by simp [h1])]
  rw [specialCaseLookup_cons, if_neg (by simp [h2])]
  rfl

/-- When additionally no fallback phrase occurs, the trailing fallbacks
yield nothing. -/
theorem fallbackResult_none (cl : Str)
    (h1 : isSubstr (str "lovely training weather") cl = false)
    (h2 : isSubstr imNotAfraidKey cl = false)
    (h3 : isSubstr (str "im not afraid") cl = false) :
    fallbackResult cl = none := by
  unfold fallbackResult
  rw [if_neg (by simp [h1]), if_neg (by simp [h2, h3])]

/-- Below-threshold queries with none of the special-case phrases yield no
match. -/
theorem findMatchingEvent_no_match (events : EventDict) (texts : List Str)
    (hs : ∀ p ∈ events,
      scoreEvent (cleanText (combinedText texts))
        (dropArrow (cleanText (combinedText texts))) p.1 ≤ mkRat 1 2)
    (h1 : isSubstr (str "lovely training weather") (lowerStr (combinedText texts)) = false)
    (h2 : isSubstr imNotAfraidKey (lowerStr (combinedText texts)) = false)
    (h3 : isSubstr (str "im not afraid") (lowerStr (combinedText texts)) = false) :
    findMatchingEvent events texts = none := by
  unfold findMatchingEvent findMatchingEventT
  by_cases ht : texts = []
  · rw [if_pos ht]
  · rw [if_neg ht]
    dsimp only
    rw [specialCaseLookup_none events _ h1 h2]
    dsimp only
    rw [if_neg, fallbackResult_none _ h1 h2 h3]
    intro hcond
    have hle : (bestFold (cleanText (combinedText texts))
        (dropArrow (cleanText (combinedText texts))) events (none, 0)).2 ≤ mkRat 1 2 :=
      bestFold_snd_le _ _ events none 0 (mkRat 1 2) (by decide) hs
    exact absurd hcond.1 (not_lt.mpr hle)

theorem numCandidates_le_one (r : Option EventData) : numCandidates r ≤ 1 := by
  cases r <;> simp [numCandidates]

/-- Core monotonicity: with the same query and index, a higher threshold
reports a match on no more inputs, and yields no more candidates. -/
theorem findMatchingEventT_mono (t1 t2 : ℚ) (events : EventDict)
    (texts : List Str) (h : t1 ≤ t2) :
    numCandidates (findMatchingEventT t2 events texts) ≤
        numCandidates (findMatchingEventT t1 events texts) ∧
      ((findMatchingEventT t2 events texts).isSome = true →
        (findMatchingEventT t1 events texts).isSome = true) := by
  unfold findMatchingEventT
  by_cases ht : texts = []
  · rw [if_pos ht, if_pos ht]
    exact ⟨le_refl _, fun h => h⟩
  · rw [if_neg ht, if_neg ht]
    dsimp only
    cases hsc : specialCaseLookup events (lowerStr (combinedText texts)) knownEvents with
    | some v => exact ⟨le_refl _, fun h => h⟩
    | none =>
      generalize bestFold (cleanText (combinedText texts))
        (dropArrow (cleanText (combinedText texts))) events (none, 0) = P
      obtain ⟨bm, bs⟩ := P
      by_cases hc2 : bs > t2 ∧ bm.isSome
      · have hc1 : bs > t1 ∧ bm.isSome := ⟨lt_of_le_of_lt h hc2.1, hc2.2⟩
        rw [if_pos hc2, if_pos hc1]
        exact ⟨le_refl _, fun h => h⟩
      · rw [if_neg hc2]
        by_cases hc1 : bs > t1 ∧ bm.isSome
        · rw [if_pos hc1]
          constructor
          · cases hbm : bm with
            | none => rw [hbm] at hc1; simp at hc1
            | some v =>
              calc numCandidates (fallbackResult (lowerStr (combinedText texts))) ≤ 1 :=
                  numCandidates_le_one _
                _ = numCandidates (some v) := by simp [numCandidates]
          · intro _
            cases hbm : bm with
            | none => rw [hbm] at hc1; simp at hc1
            | some v => simp
        · rw [if_neg hc1]
          exact ⟨le_refl _, fun h => h⟩

/-! ## Corpus-loading lemmas -/

theorem processEntries_obj_cons (n : Str) (c : List EventChoice) (t : Str)
    (rest : List RawEntry) (d : EventDict) :
    processEntries (.obj n c t :: rest) d =
      processEntries rest
        (if n ≠ [] ∧ isEnglishEvent n then dictInsert n ⟨n, c, t⟩ d else d) := rfl

theorem isEnglishEvent_false_of_no_latin (n : Str) (h : hasLatin n = false) :
    isEnglishEvent n = false := by
  simp [isEnglishEvent, h]

theorem isEnglishEvent_false_of_japanese (n : Str) (h : hasJapanese n = true) :
    isEnglishEvent n = false := by
  simp [isEnglishEvent, h]

/-- A rejected entry (empty or non-English name) leaves the state of the
processing loop untouched. -/
theorem processEntries_drop (rest : List RawEntry) (d : EventDict)
    (n : Str) (c : List EventChoice) (t : Str)
    (hskip : n = [] ∨ isEnglishEvent n = false) :
    processEntries (.obj n c t :: rest) d = processEntries rest d := by
  rw [processEntries_obj_cons, if_neg]
  rcases hskip with h | h
  · exact fun hc => hc.1 h
  · exact fun hc => by rw [h] at hc; exact absurd hc.2 (by simp)

/-- A rejected entry anywhere in the list can be removed without changing
the processing result. -/
theorem processEntries_erase_skip (pre : List RawEntry) :
    ∀ (d : EventDict) (post : List RawEntry) (n : Str) (c : List EventChoice) (t : Str),
      (n = [] ∨ isEnglishEvent n = false) →
      processEntries (pre ++ .obj n c t :: post) d = processEntries (pre ++ post) d := by
  induction pre with
  | nil =>
    intro d post n c t hskip
    simpa using processEntries_drop post d n c t hskip
  | cons e pre' ih =>
    intro d post n c t hskip
    cases e with
    | bad => rw [List.cons_append, List.cons_append]; rfl
    | obj n' c' t' =>
      rw [List.cons_append, List.cons_append,
        processEntries_obj_cons, processEntries_obj_cons]
      exact ih _ post n c t hskip

/-- Processing stops at a raising entry: the dictionary built so far is kept
(the exception flag is set), and everything after the raising entry is
ignored. -/
theorem processEntries_raise (pre : List RawEntry) :
    ∀ (d : EventDict) (rest : List RawEntry), RawEntry.bad ∉ pre →
      processEntries (pre ++ .bad :: rest) d = ((processEntries pre d).1, true) := by
  induction pre with
  | nil => intro d rest _; rfl
  | cons e pre' ih =>
    intro d rest hpre
    cases e with
    | bad => exact absurd (List.mem_cons_self _ _) hpre
    | obj n c t =>
      rw [List.cons_append, processEntries_obj_cons, processEntries_obj_cons]
      exact ih _ rest (fun hm => hpre (List.mem_cons_of_mem _ hm))

theorem dictInsert_nil (n : Str) (v : EventData) :
    dictInsert n v [] = [(n, v)] := by
  simp [dictInsert, dictContains]

theorem dictInsert_overwrite (n : Str) (v1 v2 : EventData) :
    dictInsert n v2 [(n, v1)] = [(n, v2)] := by
  simp [dictInsert, dictContains]

theorem dictContains_iff (m : Str) (d : EventDict) :
    dictContains m d = true ↔ ∃ p ∈ d, p.1 = m := by
  unfold dictContains
  rw [List.any_eq_true]
  constructor
  · rintro ⟨p, hp, hpe⟩
    exact ⟨p, hp, by rwa [beq_iff_eq] at hpe⟩
  · rintro ⟨p, hp, hpe⟩
    exact ⟨p, hp, by rwa [beq_iff_eq]⟩

theorem dictContains_dictInsert_self (n : Str) (v : EventData) (d : EventDict) :
    dictContains n (dictInsert n v d) = true := by
  by_cases h : dictContains n d = true
  · rw [dictInsert, if_pos h, dictContains_iff]
    rw [dictContains_iff] at h
    obtain ⟨p, hp, hpk⟩ := h
    refine ⟨(n, v), List.mem_map.mpr ⟨p, hp, ?_⟩, rfl⟩
    rw [if_pos (by rw [beq_iff_eq]; exact hpk)]
  · rw [dictInsert, if_neg h, dictContains_iff]
    exact ⟨(n, v), List.mem_append.mpr (Or.inr (List.mem_cons_self _ _)), rfl⟩

theorem dictContains_dictInsert_mono (m k : Str) (v : EventData) (d : EventDict)
    (h : dictContains m d = true) :
    dictContains m (dictInsert k v d) = true := by
  rw [dictContains_iff] at h
  obtain ⟨p, hp, hpk⟩ := h
  by_cases hcd : dictContains k d = true
  · rw [dictInsert, if_pos hcd, dictContains_iff]
    refine ⟨if p.1 == k then (k, v) else p, List.mem_map.mpr ⟨p, hp, rfl⟩, ?_⟩
    by_cases hc : p.1 = k
    · rw [if_pos (by rw [beq_iff_eq]; exact hc), ← hc, hpk]
    · rw [if_neg (by rw [beq_iff_eq]; exact hc)]
      exact hpk
  · rw [dictInsert, if_neg hcd, dictContains_iff]
    exact ⟨p, List.mem_append.mpr (Or.inl hp), hpk⟩

/-- Overwriting the value stored under key `n` preserves which keys a
dictionary contains. -/
theorem dictContains_map_overwrite (k n : Str) (vn : EventData) (d : EventDict) :
    dictContains k (d.map (fun p => if p.1 == n then (n, vn) else p)) =
      dictContains k d := by
  induction d with
  | nil => rfl
  | cons p rest ih =>
    simp only [dictContains, List.map_cons, List.any_cons] at ih ⊢
    rw [ih]
    congr 1
    by_cases hpn : p.1 = n
    · rw [if_pos (by rw [beq_iff_eq]; exact hpn)]
      show ((n, vn).1 == k) = (p.1 == k)
      rw [show (n, vn).1 = n from rfl, hpn]
    · rw [if_neg (by rw [beq_iff_eq]; exact hpn)]

/-- Overwriting the value stored under key `n` commutes with inserting a
different key `k`. -/
theorem map_dictInsert_comm (n k : Str) (hkn : k ≠ n) (v vn : EventData)
    (d : EventDict) :
    (dictInsert k v d).map (fun p => if p.1 == n then (n, vn) else p) =
      dictInsert k v (d.map (fun p => if p.1 == n then (n, vn) else p)) := by
  by_cases h : dictContains k d = true
  · rw [dictInsert, if_pos h, dictInsert,
      if_pos (by rw [dictContains_map_overwrite]; exact h)]
    rw [List.map_map, List.map_map]
    apply List.map_congr_left
    intro p _
    simp only [Function.comp_apply]
    split_ifs <;> simp_all [beq_iff_eq]
  · rw [dictInsert, if_neg h, dictInsert,
      if_neg (by rw [dictContains_map_overwrite]; exact h)]
    rw [List.map_append]
    congr 1
    rw [List.map_singleton, if_neg (by rw [beq_iff_eq]; exact hkn)]

/-- Overwriting key `n` after inserting `(n, v1)` is the same as inserting
`(n, v2)` directly: the value changes, the position does not. -/
theorem dictInsert_overwrite_map (n : Str) (v1 v2 : EventData) (d : EventDict) :
    (dictInsert n v1 d).map (fun p => if p.1 == n then (n, v2) else p) =
      dictInsert n v2 d := by
  by_cases h : dictContains n d = true
  · rw [dictInsert, if_pos h, dictInsert, if_pos h, List.map_map]
    apply List.map_congr_left
    intro p _
    simp only [Function.comp_apply]
    split_ifs <;> simp_all [beq_iff_eq]
  · rw [dictInsert, if_neg h, dictInsert, if_neg h, List.map_append]
    have hno : ∀ p ∈ d, p.1 ≠ n := by
      intro p hp hpn
      exact h ((dictContains_iff n d).mpr ⟨p, hp, hpn⟩)
    congr 1
    · calc d.map (fun p => if p.1 == n then (n, v2) else p)
          = d.map id := by
            apply List.map_congr_left
            intro p hp
            rw [if_neg (by rw [beq_iff_eq]; exact hno p hp)]
            rfl
        _ = d := List.map_id d
    · rw [List.map_singleton,
        if_pos (show ((n, v1).1 == n) = true by rw [beq_iff_eq])]

/-- Processing a run of entries that neither raise nor use the name `n`,
followed by a second `n`-named entry, equals overwriting `n`'s value in
place first and processing the run without the duplicate: the duplicate's
payload lands at the position key `n` already occupies. -/
theorem processEntries_overwrite_mid (n : Str) (c2 : List EventChoice) (t2 : Str)
    (hne : n ≠ []) (hen : isEnglishEvent n = true) :
    ∀ (mid : List RawEntry), RawEntry.bad ∉ mid →
      (∀ c t, RawEntry.obj n c t ∉ mid) →
      ∀ (post : List RawEntry) (d : EventDict), dictContains n d = true →
        processEntries (mid ++ .obj n c2 t2 :: post) d =
          processEntries (mid ++ post)
            (d.map (fun p => if p.1 == n then (n, ⟨n, c2, t2⟩) else p)) := by
  intro mid
  induction mid with
  | nil =>
    intro _ _ post d hd
    rw [List.nil_append, List.nil_append, processEntries_obj_cons, if_pos ⟨hne, hen⟩]
    rw [dictInsert, if_pos hd]
  | cons e mid' ih =>
    intro hbad hnodup post d hd
    cases e with
    | bad => exact absurd (List.mem_cons_self _ _) hbad
    | obj k ck tk =>
      rw [List.cons_append, List.cons_append,
        processEntries_obj_cons, processEntries_obj_cons]
      by_cases hacc : k ≠ [] ∧ isEnglishEvent k = true
      · rw [if_pos hacc, if_pos hacc]
        have hkn : k ≠ n := by
          intro he
          subst he
          exact hnodup ck tk (List.mem_cons_self _ _)
        rw [ih (fun hm => hbad (List.mem_cons_of_mem _ hm))
          (fun c t hm => hnodup c t (List.mem_cons_of_mem _ hm))
          post (dictInsert k ⟨k, ck, tk⟩ d)
          (dictContains_dictInsert_mono n k ⟨k, ck, tk⟩ d hd)]
        rw [map_dictInsert_comm n k hkn ⟨k, ck, tk⟩ ⟨n, c2, t2⟩ d]
      · rw [if_neg hacc, if_neg hacc]
        exact ih (fun hm => hbad (List.mem_cons_of_mem _ hm))
          (fun c t hm => hnodup c t (List.mem_cons_of_mem _ hm)) post d hd

/-- The general duplicate-overwrite law: a corpus with two accepted
`n`-named entries (no raising and no other `n`-named entry between them)
loads exactly like the corpus with the second payload at the first entry's
position and the duplicate removed. -/
theorem processEntries_dup_overwrite (n : Str) (c1 : List EventChoice) (t1 : Str)
    (c2 : List EventChoice) (t2 : Str) (mid post : List RawEntry)
    (hne : n ≠ []) (hen : isEnglishEvent n = true)
    (hmidbad : RawEntry.bad ∉ mid)
    (hmidn : ∀ c t, RawEntry.obj n c t ∉ mid) :
    ∀ (pre : List RawEntry) (d : EventDict),
      processEntries (pre ++ .obj n c1 t1 :: (mid ++ .obj n c2 t2 :: post)) d =
        processEntries (pre ++ .obj n c2 t2 :: (mid ++ post)) d := by
  intro pre
  induction pre with
  | nil =>
    intro d
    rw [List.nil_append, List.nil_append,
      processEntries_obj_cons, processEntries_obj_cons,
      if_pos ⟨hne, hen⟩, if_pos ⟨hne, hen⟩]
    rw [processEntries_overwrite_mid n c2 t2 hne hen mid hmidbad hmidn post
      (dictInsert n ⟨n, c1, t1⟩ d) (dictContains_dictInsert_self n ⟨n, c1, t1⟩ d)]
    rw [dictInsert_overwrite_map n ⟨n, c1, t1⟩ ⟨n, c2, t2⟩ d]
  | cons e pre' ih =>
    intro d
    cases e with
    | bad => rw [List.cons_append, List.cons_append]; rfl
    | obj k ck tk =>
      rw [List.cons_append, List.cons_append,
        processEntries_obj_cons, processEntries_obj_cons]
      exact ih _

/-! ## Disambiguation lemmas -/

theorem foldl_pick_mem (freq : FreqMap) (vs : List EventVariant) :
    ∀ v : EventVariant,
      vs.foldl (fun best w =>
        if variantScore freq w > variantScore freq best then w else best) v ∈ v :: vs := by
  induction vs with
  | nil => intro v; exact List.mem_cons_self _ _
  | cons w ws ih =>
    intro v
    rw [List.foldl_cons]
    rcases List.mem_cons.mp (ih (if variantScore freq w > variantScore freq v then w else v))
      with h | h
    · rw [h]
      split
      · exact List.mem_cons_of_mem _ (List.mem_cons_self _ _)
      · exact List.mem_cons_self _ _
    · exact List.mem_cons_of_mem _ (List.mem_cons_of_mem _ h)

theorem pickBest_mem (freq : FreqMap) (l : List EventVariant) (w : EventVariant)
    (h : pickBest freq l = some w) : w ∈ l := by
  cases l with
  | nil => cases h
  | cons v vs =>
    have := foldl_pick_mem freq vs v
    rw [show vs.foldl (fun best w =>
        if variantScore freq w > variantScore freq best then w else best) v = w from
      Option.some.inj h] at this
    exact this

theorem disambiguate_pair_cons (v1 v2 : EventVariant) (vs : List EventVariant)
    (ownerFilter : Option Str) (freq : FreqMap) :
    disambiguate (v1 :: v2 :: vs) ownerFilter freq =
      (match ownerFilter with
      | some oid =>
        if ((v1 :: v2 :: vs).filter (hasOwner oid)).isEmpty then
          pickBest freq (v1 :: v2 :: vs)
        else pickBest freq ((v1 :: v2 :: vs).filter (hasOwner oid))
      | none => pickBest freq (v1 :: v2 :: vs)) := by
  cases ownerFilter with
  | none => rfl
  | some oid =>
    show (let working := if ((v1 :: v2 :: vs).filter (hasOwner oid)).isEmpty
        then v1 :: v2 :: vs else (v1 :: v2 :: vs).filter (hasOwner oid);
      pickBest freq working) = _
    dsimp only
    split <;> simp_all

/-! ## Claims -/

/-- C1 counterexample: with an empty loaded index (so no event scores above
the threshold — vacuously), querying the special-cased phrase
`"lovely training weather"` does not return "no match": `find_matching_event`
fabricates an entire event payload that is not an entry of the index. -/
theorem c1_counterexample :
    findMatchingEvent [] [str "lovely training weather"] = some fabricatedLTW ∧
      ∀ p : Str × EventData, p ∈ ([] : EventDict) → p.2 ≠ fabricatedLTW := by
  exact ⟨by decide, fun p hp => absurd hp (List.not_mem_nil _)⟩

/-- C1 (amended): for every query against a loaded index, if no event's match
score exceeds the 0.5 threshold and the combined query text contains none of
the hardcoded special-case phrases (`"lovely training weather"`,
`"i'm not afraid"`, `"im not afraid"`), then `find_matching_event` returns
the "no match" result `none` (and, being a total function, never raises). -/
theorem c1_amended_no_match (events : EventDict) (texts : List Str)
    (hs : ∀ p ∈ events,
      scoreEvent (cleanText (combinedText texts))
        (dropArrow (cleanText (combinedText texts))) p.1 ≤ mkRat 1 2)
    (h1 : isSubstr (str "lovely training weather") (lowerStr (combinedText texts)) = false)
    (h2 : isSubstr imNotAfraidKey (lowerStr (combinedText texts)) = false)
    (h3 : isSubstr (str "im not afraid") (lowerStr (combinedText texts)) = false) :
    findMatchingEvent events texts = none :=
  findMatchingEvent_no_match events texts hs h1 h2 h3

/-- C1 witness: the amended theorem applied to a concrete sub-threshold
query. -/
theorem c1_amended_witness :
    (∀ p ∈ ([] : EventDict),
      scoreEvent (cleanText (combinedText [str "abc"]))
        (dropArrow (cleanText (combinedText [str "abc"]))) p.1 ≤ mkRat 1 2) ∧
    isSubstr (str "lovely training weather") (lowerStr (combinedText [str "abc"])) = false ∧
    isSubstr imNotAfraidKey (lowerStr (combinedText [str "abc"])) = false ∧
    isSubstr (str "im not afraid") (lowerStr (combinedText [str "abc"])) = false ∧
    findMatchingEvent [] [str "abc"] = none :=
  ⟨fun p hp => absurd hp (List.not_mem_nil _), by decide, by decide, by decide,
    c1_amended_no_match [] [str "abc"] (fun p hp => absurd hp (List.not_mem_nil _))
      (by decide) (by decide) (by decide)⟩

/-- C2 counterexample: a loaded corpus containing both `"Camp"` and
`"Training Camp"` (in that insertion order).  The exact query
`"Training Camp"` scores the `"Training Camp"` entry at the maximal score 1,
yet `find_matching_event` returns the `"Camp"` entry, because `"camp"` is a
substring of `"training camp"`, also scores 1, and the loop keeps the first
strict maximum. -/
theorem c2_counterexample :
    loadEvents (.parsed (.dict (some
        [.obj (str "Camp") [] (str "Unknown"),
         .obj (str "Training Camp") [] (str "Unknown")]))) =
      [(str "Camp", ⟨str "Camp", [], str "Unknown"⟩),
       (str "Training Camp", ⟨str "Training Camp", [], str "Unknown"⟩)] ∧
    findMatchingEvent
        [(str "Camp", ⟨str "Camp", [], str "Unknown"⟩),
         (str "Training Camp", ⟨str "Training Camp", [], str "Unknown"⟩)]
        [str "Training Camp"] =
      some ⟨str "Camp", [], str "Unknown"⟩ ∧
    (⟨str "Camp", [], str "Unknown"⟩ : EventData) ≠
      ⟨str "Training Camp", [], str "Unknown"⟩ := by
  refine ⟨by decide, by decide, by decide⟩

/-- C2 (amended): the exact query `"Training Camp"` scores an event named
`"Training Camp"` at the maximal score 1, and `find_matching_event` returns
the data of the first entry attaining the maximum: for every index in which
the `"Training Camp"` entry is preceded only by entries scoring strictly
below 1, that event is returned, regardless of the entries that follow it
(even later entries that also score 1 cannot displace it, since the loop
keeps only strict improvements). -/
theorem c2_amended_exact_roundtrip (pre post : EventDict) (d : EventData)
    (hpre : ∀ p ∈ pre,
      scoreEvent (cleanText (combinedText [str "Training Camp"]))
        (dropArrow (cleanText (combinedText [str "Training Camp"]))) p.1 < 1) :
    scoreEvent (cleanText (combinedText [str "Training Camp"]))
        (dropArrow (cleanText (combinedText [str "Training Camp"])))
        (str "Training Camp") = 1 ∧
    findMatchingEvent (pre ++ (str "Training Camp", d) :: post)
        [str "Training Camp"] =
      some d := by
  refine ⟨by decide, ?_⟩
  unfold findMatchingEvent findMatchingEventT
  rw [if_neg (by simp)]
  dsimp only
  rw [specialCaseLookup_none _ _ (by decide) (by decide)]
  dsimp only
  rw [bestFold_append]
  have hlt : (bestFold (cleanText (combinedText [str "Training Camp"]))
      (dropArrow (cleanText (combinedText [str "Training Camp"])))
      pre (none, 0)).2 < 1 :=
    bestFold_snd_lt _ _ pre none 0 1 (by decide) hpre
  cases hB : bestFold (cleanText (combinedText [str "Training Camp"]))
      (dropArrow (cleanText (combinedText [str "Training Camp"])))
      pre (none, 0) with
  | mk bm0 bs0 =>
  rw [hB] at hlt
  rw [bestFold_cons]
  rw [show scoreEvent (cleanText (combinedText [str "Training Camp"]))
      (dropArrow (cleanText (combinedText [str "Training Camp"])))
      (str "Training Camp") = 1 from by decide]
  rw [if_pos hlt]
  rw [bestFold_stay _ _ post (some d) 1
    (fun p _ => scoreEvent_le_one _ _ p.1)]
  dsimp only
  rw [if_pos (And.intro (show (1 : ℚ) > mkRat 1 2 by decide)
    (show (some d).isSome = true from rfl))]

/-- C3 counterexample: a corpus with two accepted entries sharing the display
name `"Alpha"`.  After loading, the index holds a single entry under
`"Alpha"`, carrying the second entry's payload; the first accepted entry has
been overwritten, not appended as a separate variant. -/
theorem c3_counterexample :
    loadEvents (.parsed (.dict (some
        [.obj (str "Alpha") [] (str "TypeOne"),
         .obj (str "Alpha") [] (str "TypeTwo")]))) =
      [(str "Alpha", ⟨str "Alpha", [], str "TypeTwo"⟩)] ∧
    (str "Alpha", (⟨str "Alpha", [], str "TypeOne"⟩ : EventData)) ∉
      loadEvents (.parsed (.dict (some
        [.obj (str "Alpha") [] (str "TypeOne"),
         .obj (str "Alpha") [] (str "TypeTwo")]))) ∧
    (str "TypeOne") ≠ (str "TypeTwo") := by
  refine ⟨by decide, by decide, by decide⟩

/-- C3 (amended): for every corpus containing two accepted entries (non-empty
name with latin letters) that share a display name - with no raising entry
and no further entry of that name between them, and arbitrary entries before,
between and after - loading is identical to loading the corpus in which the
earlier entry’s slot holds the later entry’s payload and the duplicate is
removed: the later accepted entry overwrites the earlier one in place,
keeping the original position; nothing is appended as a separate variant. -/
theorem c3_amended_overwrite (pre mid post : List RawEntry) (n : Str)
    (c1 : List EventChoice) (t1 : Str) (c2 : List EventChoice) (t2 : Str)
    (hne : n ≠ []) (hen : isEnglishEvent n = true)
    (hmidbad : RawEntry.bad ∉ mid)
    (hmidn : ∀ c t, RawEntry.obj n c t ∉ mid) :
    loadEvents (.parsed (.dict (some
        (pre ++ .obj n c1 t1 :: (mid ++ .obj n c2 t2 :: post))))) =
      loadEvents (.parsed (.dict (some
        (pre ++ .obj n c2 t2 :: (mid ++ post))))) := by
  show (processEntries (pre ++ .obj n c1 t1 :: (mid ++ .obj n c2 t2 :: post)) []).1 =
    (processEntries (pre ++ .obj n c2 t2 :: (mid ++ post)) []).1
  rw [processEntries_dup_overwrite n c1 t1 c2 t2 mid post hne hen hmidbad hmidn pre []]

/-- C3 witness: the amended theorem at a concrete corpus with surrounding
entries; the final conjunct exhibits the position-keeping concretely
(`"Alpha"` holds the second payload at the first entry’s position, between
`"Pre"` and `"Mid"`). -/
theorem c3_amended_witness :
    (str "Alpha") ≠ [] ∧ isEnglishEvent (str "Alpha") = true ∧
    RawEntry.bad ∉ [RawEntry.obj (str "Mid") [] (str "Unknown")] ∧
    (∀ c t, RawEntry.obj (str "Alpha") c t ∉
      [RawEntry.obj (str "Mid") [] (str "Unknown")]) ∧
    loadEvents (.parsed (.dict (some
        ([RawEntry.obj (str "Pre") [] (str "Unknown")] ++
          .obj (str "Alpha") [] (str "TypeOne") ::
          ([RawEntry.obj (str "Mid") [] (str "Unknown")] ++
            .obj (str "Alpha") [] (str "TypeTwo") ::
            [RawEntry.obj (str "Post") [] (str "Unknown")]))))) =
      loadEvents (.parsed (.dict (some
        ([RawEntry.obj (str "Pre") [] (str "Unknown")] ++
          .obj (str "Alpha") [] (str "TypeTwo") ::
          ([RawEntry.obj (str "Mid") [] (str "Unknown")] ++
            [RawEntry.obj (str "Post") [] (str "Unknown")]))))) ∧
    loadEvents (.parsed (.dict (some
        ([RawEntry.obj (str "Pre") [] (str "Unknown")] ++
          .obj (str "Alpha") [] (str "TypeOne") ::
          ([RawEntry.obj (str "Mid") [] (str "Unknown")] ++
            .obj (str "Alpha") [] (str "TypeTwo") ::
            [RawEntry.obj (str "Post") [] (str "Unknown")]))))) =
      [(str "Pre", ⟨str "Pre", [], str "Unknown"⟩),
       (str "Alpha", ⟨str "Alpha", [], str "TypeTwo"⟩),
       (str "Mid", ⟨str "Mid", [], str "Unknown"⟩),
       (str "Post", ⟨str "Post", [], str "Unknown"⟩)] := by
  have hmidn : ∀ c t, RawEntry.obj (str "Alpha") c t ∉
      [RawEntry.obj (str "Mid") [] (str "Unknown")] := by
    intro c t h
    rw [List.mem_singleton] at h
    injection h with h1 h2 h3
    exact absurd h1 (by decide)
  refine ⟨by decide, by decide, by decide, hmidn, ?_, by decide⟩
  exact c3_amended_overwrite
    [RawEntry.obj (str "Pre") [] (str "Unknown")]
    [RawEntry.obj (str "Mid") [] (str "Unknown")]
    [RawEntry.obj (str "Post") [] (str "Unknown")]
    (str "Alpha") [] (str "TypeOne") [] (str "TypeTwo")
    (by decide) (by decide) (by decide) hmidn

/-- C4: threshold monotonicity.  For a fixed query and index, and thresholds
`t1 ≤ t2` substituted for the source's constant `0.5`, a match reported at
the higher threshold is also reported at the lower one, and the number of
returned candidates never increases when the threshold is raised. -/
theorem c4_threshold_mono (t1 t2 : ℚ) (events : EventDict)
    (texts : List Str) (h : t1 ≤ t2) :
    numCandidates (findMatchingEventT t2 events texts) ≤
        numCandidates (findMatchingEventT t1 events texts) ∧
      ((findMatchingEventT t2 events texts).isSome = true →
        (findMatchingEventT t1 events texts).isSome = true) :=
  findMatchingEventT_mono t1 t2 events texts h

/-- C4 witness: the monotonicity theorem at concrete thresholds. -/
theorem c4_threshold_mono_witness :
    (0 : ℚ) ≤ 1 ∧
    (numCandidates (findMatchingEventT 1 [] [str "x"]) ≤
        numCandidates (findMatchingEventT 0 [] [str "x"]) ∧
      ((findMatchingEventT 1 [] [str "x"]).isSome = true →
        (findMatchingEventT 0 [] [str "x"]).isSome = true)) :=
  ⟨by decide, c4_threshold_mono 0 1 [] [str "x"] (by decide)⟩

/-- C5: the comparison normalization (lowercasing composed with
`_clean_text`) is idempotent on every input, and case-insensitive:
`normalize("Lovely Weather!!") = normalize("lovely weather")`. -/
theorem c5_normalize_idem_case_insensitive :
    (∀ s : Str, normalizeText (normalizeText s) = normalizeText s) ∧
    normalizeText (str "Lovely Weather!!") = normalizeText (str "lovely weather") :=
  ⟨normalizeText_idem, by decide⟩

/-- C6 counterexample: `_clean_text` keeps underscores (Python `\w` matches
`_`), so its output is not restricted to alphanumerics and spaces, contrary
to the claim that underscores are stripped. -/
theorem c6_counterexample :
    cleanText (str "a_b") = str "a_b" ∧
    ('_').isAlphanum = false ∧ isWordChar '_' = true := by
  refine ⟨by decide, by decide, by decide⟩

/-- C6 (amended): for every input, the output of `_clean_text` consists only
of word characters (alphanumeric or underscore — underscores are kept, not
stripped) and single separating spaces: no two adjacent spaces, and no
leading or trailing space. -/
theorem c6_amended_clean_shape (s : Str) :
    (∀ c ∈ cleanText s, isWordChar c = true ∨ c = ' ') ∧
    List.Chain' (fun a b => ¬(a = ' ' ∧ b = ' ')) (cleanText s) ∧
    (cleanText s).head? ≠ some ' ' ∧
    (cleanText s).getLast? ≠ some ' ' := by
  have hparts : ∀ p ∈ splitWs (s.filter keepChar),
      p ≠ [] ∧ ∀ c ∈ p, pyIsSpace c = false :=
    fun p hp => ⟨(splitWs_parts _ p hp).1,
      fun c hc => ((splitWs_parts _ p hp).2 c hc).1⟩
  refine ⟨?_, ?_, ?_, ?_⟩
  · intro c hc
    rcases mem_cleanText hc with h1 | ⟨hk, hns, -⟩
    · exact Or.inr h1
    · refine Or.inl ?_
      rw [keepChar, hns, Bool.or_false] at hk
      exact hk
  · exact joinSpace_chain' _ hparts
  · show (joinSpace (splitWs (s.filter keepChar))).head? ≠ some ' '
    cases hP : splitWs (s.filter keepChar) with
    | nil => intro hcon; cases hcon
    | cons p ps =>
      have hp := hparts p (by rw [hP]; exact List.mem_cons_self _ _)
      rw [joinSpace_head? p ps hp.1]
      intro hcon
      have : pyIsSpace ' ' = false := hp.2 ' ' (List.mem_of_mem_head? hcon)
      simp [pyIsSpace] at this
  · show (joinSpace (splitWs (s.filter keepChar))).getLast? ≠ some ' '
    cases hP : splitWs (s.filter keepChar) with
    | nil => intro hcon; cases hcon
    | cons p ps =>
      obtain ⟨r, hr, heq, hrne⟩ :=
        joinSpace_getLast? (p :: ps)
          (fun x hx => (hparts x (by rw [hP]; exact hx)).1) p ps rfl
      rw [heq]
      intro hcon
      have : pyIsSpace ' ' = false :=
        (hparts r (by rw [hP]; exact hr)).2 ' ' (List.mem_of_mem_getLast? hcon)
      simp [pyIsSpace] at this

/-- C7 counterexample: a parsed document whose second entry raises during
processing.  `load_events` completes without raising, but the index is not
left empty: it retains the entry processed before the failure. -/
theorem c7_counterexample :
    loadEvents (.parsed (.dict (some
        [.obj (str "Alpha") [] (str "Unknown"), .bad]))) =
      [(str "Alpha", ⟨str "Alpha", [], str "Unknown"⟩)] ∧
    loadEvents (.parsed (.dict (some
        [.obj (str "Alpha") [] (str "Unknown"), .bad]))) ≠ [] := by
  refine ⟨by decide, by decide⟩

/-- C7 (amended): `load_events` never raises to the caller (it is a total
function on every corpus source).  A missing, unreadable, non-dictionary, or
entryless source yields an empty index; a document whose entries raise
mid-processing yields the index of exactly the entries accepted before the
raising entry — possibly non-empty — and everything after the raising entry
is ignored. -/
theorem c7_amended_degraded_load :
    (loadEvents .missing = [] ∧ loadEvents .unreadable = [] ∧
      loadEvents (.parsed .notDict) = [] ∧ loadEvents (.parsed (.dict none)) = []) ∧
    ∀ (pre rest : List RawEntry), RawEntry.bad ∉ pre →
      loadEvents (.parsed (.dict (some (pre ++ .bad :: rest)))) =
        loadEvents (.parsed (.dict (some pre))) := by
  refine ⟨⟨rfl, rfl, rfl, rfl⟩, ?_⟩
  intro pre rest hpre
  show (processEntries (pre ++ .bad :: rest) []).1 = (processEntries pre []).1
  rw [processEntries_raise pre [] rest hpre]

/-- C7 witness: the amended theorem at a concrete partially-failing corpus. -/
theorem c7_amended_witness :
    RawEntry.bad ∉ [RawEntry.obj (str "Alpha") [] (str "Unknown")] ∧
    loadEvents (.parsed (.dict (some
        ([RawEntry.obj (str "Alpha") [] (str "Unknown")] ++ RawEntry.bad :: [])))) =
      loadEvents (.parsed (.dict (some [RawEntry.obj (str "Alpha") [] (str "Unknown")]))) :=
  ⟨by decide, c7_amended_degraded_load.2
    [RawEntry.obj (str "Alpha") [] (str "Unknown")] [] (by decide)⟩

/-- C8: an entry whose display name contains no latin letter is rejected at
load time by `_process_event_data`/`_is_english_event`: processing a corpus
with such an entry anywhere gives exactly the same index (and exception
state) as processing the corpus with that entry removed — it is never
inserted. -/
theorem c8_no_latin_rejected (pre post : List RawEntry) (d : EventDict)
    (n : Str) (c : List EventChoice) (t : Str) (h : hasLatin n = false) :
    processEntries (pre ++ .obj n c t :: post) d = processEntries (pre ++ post) d :=
  processEntries_erase_skip pre d post n c t
    (Or.inr (isEnglishEvent_false_of_no_latin n h))

/-- C8 witness: a concrete latin-free entry is dropped by the loader. -/
theorem c8_no_latin_witness :
    hasLatin (str "123!") = false ∧
    processEntries ([] ++ .obj (str "123!") [] (str "Unknown") :: []) [] =
      processEntries ([] ++ []) [] :=
  ⟨by decide, c8_no_latin_rejected [] [] [] (str "123!") [] (str "Unknown") (by decide)⟩

/-- C9 (modelled from the spec, §4.6): disambiguation respects the owner
filter — whenever at least two same-named variants are given and some
variant's sources contain the filtered owner id, `disambiguate` returns a
variant from that restricted set, regardless of the session frequencies. -/
theorem c9_disambiguate_respects_filter (variants : List EventVariant)
    (oid : Str) (freq : FreqMap)
    (hlen : 2 ≤ variants.length)
    (hex : ∃ v ∈ variants, hasOwner oid v = true) :
    ∃ w, disambiguate variants (some oid) freq = some w ∧ hasOwner oid w = true := by
  cases variants with
  | nil => simp at hlen
  | cons v1 tl =>
    cases tl with
    | nil => simp at hlen
    | cons v2 vs =>
      rw [disambiguate_pair_cons]
      dsimp only
      have hfil : (v1 :: v2 :: vs).filter (hasOwner oid) ≠ [] := by
        obtain ⟨v, hv, hvp⟩ := hex
        intro hnil
        have hvf : v ∈ (v1 :: v2 :: vs).filter (hasOwner oid) :=
          List.mem_filter.mpr ⟨hv, hvp⟩
        rw [hnil] at hvf
        cases hvf
      rw [if_neg (by simpa [List.isEmpty_iff] using hfil)]
      cases hfb : pickBest freq ((v1 :: v2 :: vs).filter (hasOwner oid)) with
      | none =>
        cases hfl : (v1 :: v2 :: vs).filter (hasOwner oid) with
        | nil => exact absurd hfl hfil
        | cons r rs => rw [hfl] at hfb; cases hfb
      | some w =>
        refine ⟨w, rfl, ?_⟩
        exact (List.mem_filter.mp (pickBest_mem freq _ w hfb)).2

/-- C9 witness: two variants sourced from owners `"A"` and `"B"`, filter
`"B"`, with `freq["A"] = 3 > freq["B"] = 1`; the returned variant is
`"B"`-sourced. -/
theorem c9_disambiguate_witness :
    2 ≤ ([⟨str "e1", str "N", [⟨.character, str "A", str "A"⟩]⟩,
          ⟨str "e2", str "N", [⟨.character, str "B", str "B"⟩]⟩] :
        List EventVariant).length ∧
    (∃ v ∈ ([⟨str "e1", str "N", [⟨.character, str "A", str "A"⟩]⟩,
          ⟨str "e2", str "N", [⟨.character, str "B", str "B"⟩]⟩] :
        List EventVariant), hasOwner (str "B") v = true) ∧
    ∃ w, disambiguate
        [⟨str "e1", str "N", [⟨.character, str "A", str "A"⟩]⟩,
         ⟨str "e2", str "N", [⟨.character, str "B", str "B"⟩]⟩]
        (some (str "B")) [(str "A", 3), (str "B", 1)] = some w ∧
      hasOwner (str "B") w = true :=
  ⟨by decide, by decide,
    c9_disambiguate_respects_filter _ _ _ (by decide) (by decide)⟩

/-- C10 (implicit): an entry whose display name contains any Japanese
character (hiragana, katakana, or CJK ideograph) is rejected at load time,
even when the name also contains latin letters: processing a corpus with
such an entry anywhere gives exactly the same index as without it. -/
theorem c10_japanese_rejected (pre post : List RawEntry) (d : EventDict)
    (n : Str) (c : List EventChoice) (t : Str) (h : hasJapanese n = true) :
    processEntries (pre ++ .obj n c t :: post) d = processEntries (pre ++ post) d :=
  processEntries_erase_skip pre d post n c t
    (Or.inr (isEnglishEvent_false_of_japanese n h))

/-- C10 witness: `"Dance レッスン Lesson"` has latin letters yet is dropped
because of the katakana characters. -/
theorem c10_japanese_witness :
    hasJapanese (str "Dance レッスン Lesson") = true ∧
    hasLatin (str "Dance レッスン Lesson") = true ∧
    processEntries ([] ++ .obj (str "Dance レッスン Lesson") [] (str "Unknown") :: []) [] =
      processEntries ([] ++ []) [] :=
  ⟨by decide, by decide,
    c10_japanese_rejected [] [] [] (str "Dance レッスン Lesson") [] (str "Unknown")
      (by decide)⟩

/-- C2 witness: the amended round-trip at a concrete index where the
`"Training Camp"` entry is preceded by a below-maximum scorer (`"Zebra"`)
and followed by another maximal scorer (`"Camp"`), which cannot displace
it. -/
theorem c2_amended_witness :
    (∀ p ∈ ([(str "Zebra", ⟨str "Zebra", [], str "Unknown"⟩)] : EventDict),
      scoreEvent (cleanText (combinedText [str "Training Camp"]))
        (dropArrow (cleanText (combinedText [str "Training Camp"]))) p.1 < 1) ∧
    (scoreEvent (cleanText (combinedText [str "Training Camp"]))
        (dropArrow (cleanText (combinedText [str "Training Camp"])))
        (str "Training Camp") = 1 ∧
    findMatchingEvent
        ([(str "Zebra", ⟨str "Zebra", [], str "Unknown"⟩)] ++
          (str "Training Camp", ⟨str "Training Camp", [], str "Unknown"⟩) ::
          [(str "Camp", ⟨str "Camp", [], str "Unknown"⟩)])
        [str "Training Camp"] =
      some ⟨str "Training Camp", [], str "Unknown"⟩) :=
  ⟨by decide,
    c2_amended_exact_roundtrip
      [(str "Zebra", ⟨str "Zebra", [], str "Unknown"⟩)]
      [(str "Camp", ⟨str "Camp", [], str "Unknown"⟩)]
      ⟨str "Training Camp", [], str "Unknown"⟩ (by decide)⟩

/-- C6 witness: the amended shape theorem at a concrete messy input. -/
theorem c6_amended_witness :
    (∀ c ∈ cleanText (str "  a_b!!  cd  "), isWordChar c = true ∨ c = ' ') ∧
    List.Chain' (fun a b => ¬(a = ' ' ∧ b = ' ')) (cleanText (str "  a_b!!  cd  ")) ∧
    (cleanText (str "  a_b!!  cd  ")).head? ≠ some ' ' ∧
    (cleanText (str "  a_b!!  cd  ")).getLast? ≠ some ' ' :=
  c6_amended_clean_shape (str "  a_b!!  cd  ")
